import Mathlib

/-!
Shallow embedding of the `viterbi` function from `Viterbi.ipynb` (PyViterbi).

The notebook implements the Viterbi algorithm for HMM decoding with numpy:

  K = transition_matrix.shape[0]; T = len(y)
  T1 = np.zeros((K, T), 'd')      -- score table, float64
  T2 = np.zeros((K, T), 'B')      -- backpointer table, unsigned byte (uint8)
  T1[:,0] = initial_state * emission_matrix[:, y[0]]
  T2[:,0] = 0
  for i in range(1, T):
      T1[:,i] = np.max(T1[:,i-1] * transition_matrix.T * emission_matrix[np.newaxis,:,y[i]].T, 1)
      T2[:,i] = np.argmax(T1[:,i-1] * transition_matrix.T, 1)
  path = np.zeros(T, 'B')
  path[-1] = np.argmax(T1[:,T-1])
  for i in reversed(range(1, T)):
      path[i-1] = T2[path[i], i]
  probability = max(T1[:,T-1])
  return path, probability

Modelling conventions:
* probabilities (numpy float64) are modelled as rationals `ℚ`, vectors as `List ℚ`,
  matrices as lists of rows `List (List ℚ)`;
* the score table T1 and the backpointer table T2 are kept as lists of
  time-indexed columns (column t = T1[:,t], resp. T2[:,t]);
* numpy dtype 'B' (unsigned byte) storage of T2 and path entries is modelled by
  reducing every stored index mod 256 (numpy array assignment casts with wraparound);
* a python/numpy runtime failure (IndexError on an out-of-range index, a
  broadcasting mismatch, np.argmax / max on an empty vector) is modelled as `none`;
  numpy length-1 broadcasting is not exercised by any theorem below;
* `np.max(-, 1)` / `np.argmax(-, 1)` are row-wise max / first-index-of-max.
-/

/-- Sequence the partial function `f` over a list; `none` as soon as `f` fails
(used for numpy fancy indexing and vectorised partial operations). -/
def mapOpt {α β : Type} (f : α → Option β) : List α → Option (List β)
  | [] => some []
  | x :: xs =>
    Option.bind (f x) fun b =>
    Option.bind (mapOpt f xs) fun bs =>
    some (b :: bs)

/-- Column `s` of a matrix, numpy `M[:, s]`; `none` when some row has no index `s`
(numpy IndexError). -/
def getCol (M : List (List ℚ)) (s : ℕ) : Option (List ℚ) :=
  mapOpt (fun row => row.get? s) M

/-- Elementwise product of two equal-length vectors; `none` on a length mismatch
(numpy broadcasting error). -/
def elemMul (u v : List ℚ) : Option (List ℚ) :=
  if u.length = v.length then some (List.zipWith (fun a b => a * b) u v) else none

/-- Maximum of `m` and the elements of a list, computed by a scan (numpy max). -/
def vecMaxAux : ℚ → List ℚ → ℚ
  | m, [] => m
  | m, x :: xs => if m < x then vecMaxAux x xs else vecMaxAux m xs

/-- Maximum of a vector, numpy `np.max` / python `max`; `none` when empty
(numpy/python raise on an empty vector). -/
def vecMax : List ℚ → Option ℚ
  | [] => none
  | x :: xs => some (vecMaxAux x xs)

/-- Scan for `np.argmax`: `best` is the index of the running maximum `bestv`,
`i` the index of the next element; a later element replaces the running maximum
only when strictly greater, so the first occurrence of the maximum wins. -/
def argmaxAux : ℕ → ℚ → ℕ → List ℚ → ℕ
  | best, _, _, [] => best
  | best, bestv, i, x :: xs =>
    if bestv < x then argmaxAux i x (i + 1) xs else argmaxAux best bestv (i + 1) xs

/-- Index of the first occurrence of the maximum of a vector, numpy `np.argmax`;
`none` when empty (numpy raises on an empty vector). -/
def argmaxFirst : List ℚ → Option ℕ
  | [] => none
  | x :: xs => some (argmaxAux 0 x 1 xs)

/-- Transpose of a rectangular matrix (used for `transition_matrix.T`). -/
def transposeQ : List (List ℚ) → List (List ℚ)
  | [] => []
  | r :: M =>
    match transposeQ M with
    | [] => r.map (fun x => [x])
    | t => List.zipWith List.cons r t

/-- One iteration of the forward loop, for `prev = T1[:,i-1]` and
`col = emission_matrix[:, y[i]]`:

  T1[:,i] = np.max(T1[:,i-1] * transition_matrix.T * emission_matrix[np.newaxis,:,y[i]].T, 1)
  T2[:,i] = np.argmax(T1[:,i-1] * transition_matrix.T, 1)

The matrix `T1[:,i-1] * transition_matrix.T` has entry `(k, j) = prev[j] * A[j][k]`;
it is built here as the transpose of the row list `j ↦ prev[j] • A[j]`.  The two
`if` guards are numpy's broadcasting/assignment shape checks; T2 values are stored
in a uint8 table, hence mod 256. -/
def stepCol (A : List (List ℚ)) (prev col : List ℚ) : Option (List ℚ × List ℕ) :=
  if prev.length = A.length then
    let M := transposeQ (List.zipWith (fun p row => row.map (fun a => p * a)) prev A)
    if M.length = col.length then
      Option.bind (mapOpt (fun rc => vecMax (rc.1.map (fun q => q * rc.2))) (M.zip col)) fun scores =>
      if scores.length = A.length then
        Option.bind (mapOpt (fun row => Option.map (fun i => i % 256) (argmaxFirst row)) M) fun bps =>
        some (scores, bps)
      else none
    else none
  else none

/-- The forward loop `for i in range(1, T)`: consumes the observations at times
1..T-1 and the previous score column, and returns the score and backpointer
columns for those times. -/
def runSteps (A E : List (List ℚ)) : List ℕ → List ℚ → Option (List (List ℚ) × List (List ℕ))
  | [], _ => some ([], [])
  | s :: rest, prev =>
    Option.bind (getCol E s) fun col =>
    Option.bind (stepCol A prev col) fun sb =>
    Option.bind (runSteps A E rest sb.1) fun tl =>
    some (sb.1 :: tl.1, sb.2 :: tl.2)

/-- The two tracking tables T1 (score columns) and T2 (backpointer columns),
after initialisation `T1[:,0] = initial_state * emission_matrix[:, y[0]]`,
`T2[:,0] = 0` and the forward loop; `none` models a numpy/python failure
(`y[0]` on an empty sequence raises at initialisation). -/
def tables (y : List ℕ) (A E : List (List ℚ)) (ini : List ℚ) :
    Option (List (List ℚ) × List (List ℕ)) :=
  match y with
  | [] => none
  | y0 :: rest =>
    Option.bind (getCol E y0) fun col0 =>
    Option.bind (elemMul ini col0) fun c0 =>
    if c0.length = A.length then
      Option.bind (runSteps A E rest c0) fun tl =>
      some (c0 :: tl.1, List.replicate A.length 0 :: tl.2)
    else none

/-- The backtracking loop `for i in reversed(range(1, T)): path[i-1] = T2[path[i], i]`,
started from state `cur` at time `i`; returns `path[0..i]`. -/
def backtraceFrom (bps : List (List ℕ)) : ℕ → ℕ → Option (List ℕ)
  | cur, 0 => some [cur]
  | cur, i + 1 =>
    Option.bind (bps.get? (i + 1)) fun colv =>
    Option.bind (colv.get? cur) fun prv =>
    Option.bind (backtraceFrom bps prv i) fun rest =>
    some (rest ++ [cur])

/-- The `viterbi` function of the notebook.  `path[-1] = np.argmax(T1[:,T-1])` is
stored into a uint8 path array (mod 256), then the backtracking loop fills the
rest of the path from T2, and `probability = max(T1[:,T-1])`. -/
def viterbi (y : List ℕ) (transition_matrix emission_matrix : List (List ℚ))
    (initial_state : List ℚ) : Option (List ℕ × ℚ) :=
  Option.bind (tables y transition_matrix emission_matrix initial_state) fun tb =>
  Option.bind (tb.1.get? (y.length - 1)) fun lastCol =>
  Option.bind (argmaxFirst lastCol) fun f =>
  Option.bind (backtraceFrom tb.2 (f % 256) (y.length - 1)) fun path =>
  Option.bind (vecMax lastCol) fun probability =>
  some (path, probability)

/-! ### Mutable-state view of one call (for the frame property)

The python function reads `y`, `transition_matrix`, `emission_matrix`,
`initial_state` and writes only the freshly allocated arrays `T1`, `T2`, `path`
(plus the scalar `probability`).  `viterbiRun` performs the same computation as
an update of an explicit state record. -/

/-- The variables visible inside one `viterbi` call: the four inputs and the
four locals the function assigns to. -/
structure VState where
  y : List ℕ
  transition_matrix : List (List ℚ)
  emission_matrix : List (List ℚ)
  initial_state : List ℚ
  T1 : List (List ℚ)
  T2 : List (List ℕ)
  path : List ℕ
  probability : ℚ
  deriving DecidableEq

/-- Run the body of `viterbi` on a state: every assignment of the source targets
`T1`, `T2`, `path` or `probability`, so only those fields are updated. -/
def viterbiRun (s : VState) : Option VState :=
  Option.bind (tables s.y s.transition_matrix s.emission_matrix s.initial_state) fun tb =>
  Option.bind (viterbi s.y s.transition_matrix s.emission_matrix s.initial_state) fun pr =>
  some { s with T1 := tb.1, T2 := tb.2, path := pr.1, probability := pr.2 }

/-! ### Validity of inputs, and the spec's table expressions -/

/-- Structural validity of an input, as the claims state it: `transition` is
square K×K, `emission` is K×N, `initial` has length K, the observation sequence
is non-empty and every symbol lies in [0, N). -/
abbrev ValidShapes (y : List ℕ) (A E : List (List ℚ)) (ini : List ℚ) (N : ℕ) : Prop :=
  (∀ row ∈ A, row.length = A.length) ∧ E.length = A.length ∧
  (∀ row ∈ E, row.length = N) ∧ ini.length = A.length ∧ y ≠ [] ∧ ∀ s ∈ y, s < N

/-- The data-model contract on well-formed inputs: all probability entries are
non-negative. -/
abbrev EntriesNonneg (A E : List (List ℚ)) (ini : List ℚ) : Prop :=
  (∀ row ∈ A, ∀ q ∈ row, 0 ≤ q) ∧ (∀ row ∈ E, ∀ q ∈ row, 0 ≤ q) ∧ ∀ q ∈ ini, 0 ≤ q

/-- A valid input: correct shapes together with the non-negativity contract of
the data model. -/
abbrev ValidInput (y : List ℕ) (A E : List (List ℚ)) (ini : List ℚ) (N : ℕ) : Prop :=
  ValidShapes y A E ini N ∧ EntriesNonneg A E ini

/-- Column `t` of the score table T1 of a run. -/
def scoreCol (y : List ℕ) (A E : List (List ℚ)) (ini : List ℚ) (t : ℕ) : Option (List ℚ) :=
  Option.bind (tables y A E ini) fun tb => tb.1.get? t

/-- Column `t` of the backpointer table T2 of a run. -/
def bpCol (y : List ℕ) (A E : List (List ℚ)) (ini : List ℚ) (t : ℕ) : Option (List ℕ) :=
  Option.bind (tables y A E ini) fun tb => tb.2.get? t

/-- Entry `score[k, t]` of the score table of a run. -/
def scoreEntry (y : List ℕ) (A E : List (List ℚ)) (ini : List ℚ) (t k : ℕ) : Option ℚ :=
  Option.bind (scoreCol y A E ini t) fun c => c.get? k

/-- Entry `backpointer[k, t]` of the backpointer table of a run. -/
def bpEntry (y : List ℕ) (A E : List (List ℚ)) (ini : List ℚ) (t k : ℕ) : Option ℕ :=
  Option.bind (bpCol y A E ini t) fun c => c.get? k

/-- The emission factor `emission[k, observations[t]]`. -/
def emissionAt (E : List (List ℚ)) (y : List ℕ) (t k : ℕ) : ℚ :=
  (E.getD k []).getD (y.getD t 0) 0

/-- The candidate values `prev[j] * transition[j, k]` for the source states
`j = 0 .. K-1`, for a given previous score column `prev`. -/
def candOf (A : List (List ℚ)) (prev : List ℚ) (k : ℕ) : List ℚ :=
  (List.range A.length).map fun j => prev.getD j 0 * (A.getD j []).getD k 0

/-- The spec's candidate list at `(t, k)` for `t ≥ 1`: the values
`score[j, t-1] * transition[j, k]` for the source states `j = 0 .. K-1`. -/
def candList (y : List ℕ) (A E : List (List ℚ)) (ini : List ℚ) (t k : ℕ) : Option (List ℚ) :=
  Option.bind (scoreCol y A E ini (t - 1)) fun c => some (candOf A c k)

/-- The spec's right-hand side for `score[k, t]`, `t ≥ 1`:
`max over j of (score[j, t-1] * transition[j, k] * emission[k, observations[t]])`. -/
def claimedScore (y : List ℕ) (A E : List (List ℚ)) (ini : List ℚ) (t k : ℕ) : Option ℚ :=
  Option.bind (candList y A E ini t k) fun l =>
  vecMax (l.map fun q => q * emissionAt E y t k)

/-- The spec's right-hand side for `backpointer[k, t]`, `t ≥ 1`:
`argmax over j of (score[j, t-1] * transition[j, k])`. -/
def claimedArgmax (y : List ℕ) (A E : List (List ℚ)) (ini : List ℚ) (t k : ℕ) : Option ℕ :=
  Option.bind (candList y A E ini t k) fun l => argmaxFirst l

/-- The argmax over `j` of the full score expression
`score[j, t-1] * transition[j, k] * emission[k, observations[t]]` (the variant
the spec says the backpointer argmax may omit the emission factor from). -/
def fullArgmax (y : List ℕ) (A E : List (List ℚ)) (ini : List ℚ) (t k : ℕ) : Option ℕ :=
  Option.bind (candList y A E ini t k) fun l =>
  argmaxFirst (l.map fun q => q * emissionAt E y t k)

/-- Joint probability of `path[0..t]` against `y[0..t]`, recomputed directly
from the inputs as the claim prescribes:
`initial[path[0]] * emission[path[0], y[0]] * ∏ transition[path[s-1], path[s]] * emission[path[s], y[s]]`. -/
def probUpTo (y : List ℕ) (A E : List (List ℚ)) (ini : List ℚ) (p : List ℕ) : ℕ → ℚ
  | 0 => ini.getD (p.getD 0 0) 0 * (E.getD (p.getD 0 0) []).getD (y.getD 0 0) 0
  | t + 1 =>
    probUpTo y A E ini p t *
      (A.getD (p.getD t 0) []).getD (p.getD (t + 1) 0) 0 *
      (E.getD (p.getD (t + 1) 0) []).getD (y.getD (t + 1) 0) 0

/-- Joint probability of a full returned path, recomputed from the inputs. -/
def recomputedProb (y : List ℕ) (A E : List (List ℚ)) (ini : List ℚ) (p : List ℕ) : ℚ :=
  probUpTo y A E ini p (y.length - 1)

/-! ### Concrete inputs used by the theorems -/

/-- Transition matrix of the notebook's reference scenario (Wikipedia HMM example). -/
def Aref : List (List ℚ) := [[7/10, 3/10], [4/10, 6/10]]

/-- Emission matrix of the reference scenario. -/
def Eref : List (List ℚ) := [[5/10, 4/10, 1/10], [1/10, 3/10, 6/10]]

/-- Initial distribution of the reference scenario. -/
def piref : List ℚ := [6/10, 4/10]

/-- A 257-state deterministic input: uniform transitions, a single observation
symbol, and all the initial mass on state 256. -/
def A257 : List (List ℚ) := List.replicate 257 (List.replicate 257 (1:ℚ))

/-- Emission matrix (257×1) for the 257-state input. -/
def E257 : List (List ℚ) := List.replicate 257 [(1:ℚ)]

/-- Initial vector for the 257-state input: mass 1 on state 256 only. -/
def pi257 : List ℚ := List.replicate 256 (0:ℚ) ++ [1]

/-- A 258-state input whose initial vector puts equal mass on states 256 and 257. -/
def A258 : List (List ℚ) := List.replicate 258 (List.replicate 258 (1:ℚ))

/-- Emission matrix (258×1) for the 258-state input. -/
def E258 : List (List ℚ) := List.replicate 258 [(1:ℚ)]

/-- Initial vector for the 258-state input: mass 1 on states 256 and 257 (a tie). -/
def pi258 : List ℚ := List.replicate 256 (0:ℚ) ++ [1, 1]

/-- A 3×2 (non-square) transition matrix. -/
def Abad : List (List ℚ) := [[1, 0], [0, 1], [1, 1]]

/-- A 3×1 emission matrix paired with `Abad`. -/
def Ebad : List (List ℚ) := [[1], [1], [1]]

/-- A length-3 initial vector paired with `Abad`. -/
def pibad : List ℚ := [1, 1, 2]

/-- Emission matrix that agrees with `Eref` on column 0 and differs elsewhere. -/
def ErefAlt : List (List ℚ) := [[5/10, 9, 9], [1/10, 9, 9]]

/-- Pre-call state for the reference scenario: inputs loaded, locals empty. -/
def sRef : VState :=
  { y := [0, 1, 2], transition_matrix := Aref, emission_matrix := Eref,
    initial_state := piref, T1 := [], T2 := [], path := [], probability := 0 }

/-- Post-call state for the reference scenario: inputs untouched, tables/path
filled with the computed values. -/
def sRefOut : VState :=
  { y := [0, 1, 2], transition_matrix := Aref, emission_matrix := Eref,
    initial_state := piref,
    T1 := [[3/10, 1/25], [21/250, 27/1000], [147/25000, 189/12500]],
    T2 := [[0, 0], [0, 0], [0, 0]],
    path := [0, 0, 1], probability := 189/12500 }

/-- Inputs for the zero-emission tie: at time 1 the emission factor is 0, so the
full-expression argmax and the emission-free backpointer argmax disagree. -/
def Azero : List (List ℚ) := [[1, 1], [1, 1]]

/-- Emission matrix whose column 1 is zero. -/
def Ezero : List (List ℚ) := [[1, 0], [1, 0]]

/-- Initial vector [1, 2] for the zero-emission example. -/
def pizero : List ℚ := [1, 2]

/-! ### List access utilities -/

/-- A successful `get?` determines `getD`. -/
theorem getD_of_get?_eq {α : Type} {l : List α} {k : ℕ} {a : α} (d : α)
    (h : l.get? k = some a) : l.getD k d = a := by
  rw [List.getD_eq_getD_get?, h]
  rfl

/-- Within bounds, `get?` returns the `getD` value. -/
theorem get?_some_of_lt {α : Type} (d : α) {l : List α} {k : ℕ} (h : k < l.length) :
    l.get? k = some (l.getD k d) := by
  rw [List.get?_eq_getElem?, List.getD_eq_getElem?_getD, List.getElem?_eq_getElem h]
  rfl

/-- Within bounds, the `getD` value is a member. -/
theorem getD_mem_of_lt {α : Type} (d : α) {l : List α} {k : ℕ} (h : k < l.length) :
    l.getD k d ∈ l := by
  rw [getD_of_get?_eq d (List.get?_eq_get h)]
  exact List.get_mem l _ _

/-- A pointwise property of all `get?` values holds of all members. -/
theorem forall_mem_of_get? {α : Type} {l : List α} {P : α → Prop}
    (h : ∀ k a, l.get? k = some a → P a) : ∀ a ∈ l, P a := by
  intro a ha
  obtain ⟨n, hn⟩ := List.mem_iff_get?.mp ha
  exact h n a hn

/-! ### mapOpt -/

/-- `mapOpt` preserves length. -/
theorem mapOpt_some_length {α β : Type} {f : α → Option β} :
    ∀ {l : List α} {r : List β}, mapOpt f l = some r → r.length = l.length := by
  intro l
  induction l with
  | nil => intro r h; simp only [mapOpt, Option.some.injEq] at h; simp [← h]
  | cons x xs ih =>
    intro r h
    simp only [mapOpt, Option.bind_eq_some, Option.some.injEq] at h
    obtain ⟨b, hb, bs, hbs, hr⟩ := h
    subst hr
    simp [ih hbs]

/-- The entries of a successful `mapOpt` are the images of the entries. -/
theorem mapOpt_some_get {α β : Type} {f : α → Option β} :
    ∀ {l : List α} {r : List β}, mapOpt f l = some r →
      ∀ i, (l.get? i).bind f = r.get? i := by
  intro l
  induction l with
  | nil => intro r h i; simp only [mapOpt, Option.some.injEq] at h; simp [← h]
  | cons x xs ih =>
    intro r h i
    simp only [mapOpt, Option.bind_eq_some, Option.some.injEq] at h
    obtain ⟨b, hb, bs, hbs, hr⟩ := h
    subst hr
    cases i with
    | zero => simp [hb]
    | succ i => simpa using ih hbs i

/-- `mapOpt` succeeds when `f` succeeds on every element. -/
theorem mapOpt_isSome {α β : Type} {f : α → Option β} :
    ∀ {l : List α}, (∀ x ∈ l, (f x).isSome) → ∃ r, mapOpt f l = some r := by
  intro l
  induction l with
  | nil => exact fun _ => ⟨[], rfl⟩
  | cons x xs ih =>
    intro h
    obtain ⟨b, hb⟩ := Option.isSome_iff_exists.mp (h x (by simp))
    obtain ⟨bs, hbs⟩ := ih fun a ha => h a (by simp [ha])
    exact ⟨b :: bs, by simp [mapOpt, hb, hbs]⟩

/-! ### vecMax -/

/-- The max scan agrees with a left fold of `max`. -/
theorem vecMaxAux_eq_foldl : ∀ (xs : List ℚ) (m : ℚ), vecMaxAux m xs = xs.foldl max m := by
  intro xs
  induction xs with
  | nil => intro m; rfl
  | cons x xs ih =>
    intro m
    by_cases hc : m < x
    · rw [show vecMaxAux m (x :: xs) = vecMaxAux x xs from by simp [vecMaxAux, hc],
        List.foldl_cons, max_eq_right hc.le, ih]
    · rw [show vecMaxAux m (x :: xs) = vecMaxAux m xs from by simp [vecMaxAux, hc],
        List.foldl_cons, max_eq_left (not_lt.mp hc), ih]

/-- The initial value is below a `max` fold. -/
theorem le_foldl_max_init : ∀ (xs : List ℚ) (m : ℚ), m ≤ xs.foldl max m := by
  intro xs
  induction xs with
  | nil => intro m; exact le_refl m
  | cons x xs ih => intro m; exact le_trans (le_max_left m x) (ih (max m x))

/-- Every member is below a `max` fold. -/
theorem le_foldl_max_mem : ∀ (xs : List ℚ) (m x : ℚ), x ∈ xs → x ≤ xs.foldl max m := by
  intro xs
  induction xs with
  | nil => intro m x h; cases h
  | cons a xs ih =>
    intro m x h
    rcases List.mem_cons.mp h with h | h
    · rw [h, List.foldl_cons]; exact le_trans (le_max_right m a) (le_foldl_max_init xs (max m a))
    · exact ih (max m a) x h

/-- A `max` fold is the initial value or a member. -/
theorem foldl_max_mem : ∀ (xs : List ℚ) (m : ℚ), xs.foldl max m = m ∨ xs.foldl max m ∈ xs := by
  intro xs
  induction xs with
  | nil => intro m; exact Or.inl rfl
  | cons x xs ih =>
    intro m
    rcases ih (max m x) with h | h
    · rcases max_cases m x with ⟨he, _⟩ | ⟨he, _⟩
      · exact Or.inl (by rw [List.foldl_cons, h, he])
      · exact Or.inr (by rw [List.foldl_cons, h, he]; exact List.mem_cons_self x xs)
    · exact Or.inr (List.mem_cons_of_mem x h)

/-- Scaling by a non-negative factor commutes with a `max` fold. -/
theorem foldl_max_mul_nonneg {e : ℚ} (he : 0 ≤ e) :
    ∀ (xs : List ℚ) (m : ℚ), (xs.map fun q => q * e).foldl max (m * e) = xs.foldl max m * e := by
  intro xs
  induction xs with
  | nil => intro m; rfl
  | cons x xs ih =>
    intro m
    rw [List.map_cons, List.foldl_cons, List.foldl_cons, ← max_mul_of_nonneg _ _ he, ih]

/-- `vecMax` of a non-empty vector succeeds. -/
theorem vecMax_isSome {l : List ℚ} (h : l ≠ []) : ∃ m, vecMax l = some m := by
  match l, h with
  | x :: xs, _ => exact ⟨vecMaxAux x xs, rfl⟩

/-- A `vecMax` value is a member. -/
theorem vecMax_mem {l : List ℚ} {m : ℚ} (h : vecMax l = some m) : m ∈ l := by
  match l, h with
  | x :: xs, h =>
    have hm : vecMaxAux x xs = m := by simpa [vecMax] using h
    rw [vecMaxAux_eq_foldl] at hm
    rcases foldl_max_mem xs x with h' | h'
    · rw [← hm, h']; exact List.mem_cons_self x xs
    · rw [← hm]; exact List.mem_cons_of_mem x h'

/-- Every member is below the `vecMax` value. -/
theorem le_vecMax {l : List ℚ} {m x : ℚ} (h : vecMax l = some m) (hx : x ∈ l) : x ≤ m := by
  match l, h with
  | a :: xs, h =>
    have hm : vecMaxAux a xs = m := by simpa [vecMax] using h
    rw [vecMaxAux_eq_foldl] at hm
    rcases List.mem_cons.mp hx with h' | h'
    · rw [h', ← hm]; exact le_foldl_max_init xs a
    · rw [← hm]; exact le_foldl_max_mem xs a x h'

/-- Scaling a vector by a non-negative factor scales its `vecMax`. -/
theorem vecMax_map_mul {e : ℚ} (he : 0 ≤ e) (l : List ℚ) :
    vecMax (l.map fun q => q * e) = (vecMax l).map fun q => q * e := by
  match l with
  | [] => rfl
  | x :: xs =>
    simp only [List.map_cons, vecMax, Option.map_some']
    rw [vecMaxAux_eq_foldl, vecMaxAux_eq_foldl, foldl_max_mul_nonneg he]

/-! ### argmax -/

/-- Invariant of the argmax scan over a list `l`: if `xs` is the slice of `l`
starting at position `i`, `b < i` is the position of the running maximum `v`,
no earlier position exceeds `v`, and positions before `b` are strictly below `v`,
then the scan returns the position of the first occurrence of the maximum of `l`. -/
theorem argmaxAux_go (l : List ℚ) :
    ∀ (xs : List ℚ) (b : ℕ) (v : ℚ) (i : ℕ),
      i + xs.length = l.length →
      (∀ j, j < xs.length → xs.getD j 0 = l.getD (i + j) 0) →
      b < i → l.getD b 0 = v →
      (∀ j, j < i → l.getD j 0 ≤ v) →
      (∀ j, j < b → l.getD j 0 < v) →
      argmaxAux b v i xs < l.length ∧
      l.getD (argmaxAux b v i xs) 0 = vecMaxAux v xs ∧
      (∀ j, j < l.length → l.getD j 0 ≤ l.getD (argmaxAux b v i xs) 0) ∧
      (∀ j, j < argmaxAux b v i xs → l.getD j 0 < l.getD (argmaxAux b v i xs) 0) := by
  intro xs
  induction xs with
  | nil =>
    intro b v i hlen hpt hbi hbv hmax hstrict
    have hil : i = l.length := by simpa using hlen
    refine ⟨by simpa [argmaxAux] using lt_of_lt_of_le hbi hil.le, ?_, ?_, ?_⟩
    · simpa [argmaxAux, vecMaxAux] using hbv
    · intro j hj
      simp only [argmaxAux, hbv]
      exact hmax j (hil ▸ hj)
    · intro j hj
      simp only [argmaxAux] at hj ⊢
      rw [hbv]
      exact hstrict j hj
  | cons x xs ih =>
    intro b v i hlen hpt hbi hbv hmax hstrict
    have hx : x = l.getD i 0 := by simpa using (hpt 0 (by simp)).symm.symm
    have hlen' : (i + 1) + xs.length = l.length := by simpa [Nat.add_comm, Nat.add_assoc,
      Nat.add_left_comm] using hlen
    have hpt' : ∀ j, j < xs.length → xs.getD j 0 = l.getD ((i + 1) + j) 0 := by
      intro j hj
      have := hpt (j + 1) (by simpa using Nat.succ_lt_succ hj)
      rw [show i + (j + 1) = (i + 1) + j from by omega] at this
      simpa [List.getD_cons_succ] using this
    by_cases hc : v < x
    · have h2 := ih i x (i + 1) hlen' hpt' (Nat.lt_succ_self i) (by rw [← hx])
        (by
          intro j hj
          have : j < i ∨ j = i := by omega
          rcases this with h | h
          · exact le_trans (hmax j h) hc.le
          · rw [h, ← hx])
        (by
          intro j hj
          exact lt_of_le_of_lt (hmax j hj) hc)
      simpa [argmaxAux, hc, vecMaxAux] using h2
    · have h2 := ih b v (i + 1) hlen' hpt' (Nat.lt_succ_of_lt hbi) hbv
        (by
          intro j hj
          have : j < i ∨ j = i := by omega
          rcases this with h | h
          · exact hmax j h
          · rw [h, ← hx]; exact not_lt.mp hc)
        hstrict
      simpa [argmaxAux, hc, vecMaxAux] using h2

/-- Characterisation of `np.argmax`: the returned index is in range, its value
is the maximum, every value is below it, and every earlier value is strictly
below it (first occurrence of the maximum). -/
theorem argmaxFirst_spec {l : List ℚ} {r : ℕ} (h : argmaxFirst l = some r) :
    r < l.length ∧ vecMax l = some (l.getD r 0) ∧
    (∀ j, j < l.length → l.getD j 0 ≤ l.getD r 0) ∧
    (∀ j, j < r → l.getD j 0 < l.getD r 0) := by
  match l, h with
  | x :: xs, h =>
    have hr : argmaxAux 0 x 1 xs = r := by simpa [argmaxFirst] using h
    have h2 := argmaxAux_go (x :: xs) xs 0 x 1 (by simp [Nat.add_comm])
      (by intro j hj; rw [show 1 + j = j + 1 from by omega]; simp [List.getD_cons_succ])
      Nat.one_pos (by simp)
      (by intro j hj; interval_cases j; simp)
      (by intro j hj; omega)
    rw [hr] at h2
    exact ⟨h2.1, by rw [show vecMax (x :: xs) = some (vecMaxAux x xs) from rfl, ← h2.2.1],
      h2.2.2.1, h2.2.2.2⟩

/-- The argmax scan is unchanged by scaling all values by a positive factor. -/
theorem argmaxAux_map_mul {e : ℚ} (he : 0 < e) :
    ∀ (xs : List ℚ) (b : ℕ) (v : ℚ) (i : ℕ),
      argmaxAux b (v * e) i (xs.map fun q => q * e) = argmaxAux b v i xs := by
  intro xs
  induction xs with
  | nil => intro b v i; rfl
  | cons x xs ih =>
    intro b v i
    by_cases hc : v < x
    · rw [List.map_cons,
        show argmaxAux b (v * e) i ((x * e) :: xs.map fun q => q * e)
            = argmaxAux i (x * e) (i + 1) (xs.map fun q => q * e) from by
          simp [argmaxAux, (mul_lt_mul_right he).mpr hc],
        show argmaxAux b v i (x :: xs) = argmaxAux i x (i + 1) xs from by
          simp [argmaxAux, hc],
        ih]
    · rw [List.map_cons,
        show argmaxAux b (v * e) i ((x * e) :: xs.map fun q => q * e)
            = argmaxAux b (v * e) (i + 1) (xs.map fun q => q * e) from by
          have hns : ¬ v * e < x * e := fun h => hc ((mul_lt_mul_right he).mp h)
          simp [argmaxAux, hns],
        show argmaxAux b v i (x :: xs) = argmaxAux b v (i + 1) xs from by
          simp [argmaxAux, hc],
        ih]

/-- `np.argmax` is unchanged by scaling the vector by a positive factor. -/
theorem argmaxFirst_map_mul {e : ℚ} (he : 0 < e) (l : List ℚ) :
    argmaxFirst (l.map fun q => q * e) = argmaxFirst l := by
  match l with
  | [] => rfl
  | x :: xs => simp [argmaxFirst, argmaxAux_map_mul he]

/-! ### Transpose and columns -/

/-- For a non-empty rectangular matrix with rows of length `c`, the transpose
has `c` rows and its row `k` collects entry `k` of every row. -/
theorem transposeQ_spec {c : ℕ} :
    ∀ {M : List (List ℚ)}, M ≠ [] → (∀ row ∈ M, row.length = c) →
      (transposeQ M).length = c ∧
      ∀ k, k < c → (transposeQ M).get? k = some (M.map fun row => row.getD k 0) := by
  intro M
  induction M with
  | nil => intro h; exact absurd rfl h
  | cons r M2 ih =>
    intro _ hrect
    have hr : r.length = c := hrect r (by simp)
    by_cases hM2 : M2 = []
    · subst hM2
      have he : transposeQ [r] = r.map fun x => [x] := by simp [transposeQ]
      constructor
      · simp [he, hr]
      · intro k hk
        rw [he, List.get?_map, get?_some_of_lt (0:ℚ) (hr ▸ hk)]
        rfl
    · have ih2 := ih hM2 (fun row hrow => hrect row (by simp [hrow]))
      by_cases hc : c = 0
      · subst hc
        have : transposeQ M2 = [] := List.length_eq_zero.mp ih2.1
        have he : transposeQ (r :: M2) = r.map fun x => [x] := by simp [transposeQ, this]
        exact ⟨by simp [he, hr], fun k hk => absurd hk (by omega)⟩
      · have htl : transposeQ M2 ≠ [] := by
          intro habs
          exact hc (by simpa [habs] using ih2.1.symm)
        have he : transposeQ (r :: M2) = List.zipWith List.cons r (transposeQ M2) := by
          match hx : transposeQ M2, htl with
          | t0 :: tl, _ => simp [transposeQ, hx]
        constructor
        · rw [he, List.length_zipWith, hr, ih2.1]
          exact Nat.min_self c
        · intro k hk
          rw [he, List.get?_eq_getElem?, List.getElem?_zipWith,
            ← List.get?_eq_getElem?, ← List.get?_eq_getElem?,
            get?_some_of_lt (0:ℚ) (hr ▸ hk), ih2.2 k hk]
          rfl

/-- Entry `k` of each row of `zipWith (fun p row => p • row) prev A` is the
candidate value `prev[j] * A[j][k]`. -/
theorem zipScale_map_getD (k : ℕ) :
    ∀ (A : List (List ℚ)) (prev : List ℚ), prev.length = A.length →
      (List.zipWith (fun p row => row.map fun a => p * a) prev A).map (fun row => row.getD k 0)
        = candOf A prev k := by
  intro A
  induction A with
  | nil =>
    intro prev hlen
    have : prev = [] := List.length_eq_zero.mp (by simpa using hlen)
    simp [this, candOf]
  | cons r A2 ih =>
    intro prev hlen
    match prev, hlen with
    | p :: prev2, hlen =>
      have hlen2 : prev2.length = A2.length := by simpa using hlen
      have hhead : (List.map (fun a => p * a) r).getD k 0 = p * r.getD k 0 := by
        by_cases hk : k < r.length
        · rw [List.getD_eq_getD_get?, List.get?_map, get?_some_of_lt (0:ℚ) hk]
          rfl
        · have hk' : r.length ≤ k := not_lt.mp hk
          rw [List.getD_eq_getD_get?, List.get?_map, List.get?_len_le hk',
            List.getD_eq_getD_get?, List.get?_len_le hk']
          simp
      simp only [List.zipWith_cons_cons, List.map_cons]
      rw [ih prev2 hlen2, hhead]
      simp only [candOf, List.length_cons, List.range_succ_eq_map, List.map_cons, List.map_map]
      simp [List.getD_cons_succ, Function.comp]

/-- For a rectangular emission matrix and an in-range symbol, column extraction
succeeds and is pointwise `E[k][s]`. -/
theorem getCol_spec {E : List (List ℚ)} {N : ℕ} (hrect : ∀ row ∈ E, row.length = N)
    {s : ℕ} (hs : s < N) :
    ∃ col, getCol E s = some col ∧ col.length = E.length ∧
      ∀ k, k < E.length → col.getD k 0 = (E.getD k []).getD s 0 := by
  obtain ⟨col, hcol⟩ := mapOpt_isSome (f := fun row => row.get? s) (l := E)
    (fun row hrow => by
      have h1 : row.get? s = some (row.getD s 0) :=
        get?_some_of_lt (0:ℚ) (by rw [hrect row hrow]; exact hs)
      show (row.get? s).isSome = true
      rw [h1]
      rfl)
  refine ⟨col, hcol, mapOpt_some_length hcol, ?_⟩
  intro k hk
  have hg := mapOpt_some_get hcol k
  rw [get?_some_of_lt ([] : List ℚ) hk] at hg
  simp only [Option.some_bind] at hg
  have hrow : (E.getD k []).length = N := hrect _ (getD_mem_of_lt [] hk)
  rw [get?_some_of_lt (0:ℚ) (by rw [hrow]; exact hs)] at hg
  exact getD_of_get?_eq 0 hg.symm

/-- `argmaxFirst` of a non-empty vector succeeds. -/
theorem argmaxFirst_isSome {l : List ℚ} (h : l ≠ []) : ∃ r, argmaxFirst l = some r := by
  match l, h with
  | x :: xs, _ => exact ⟨argmaxAux 0 x 1 xs, rfl⟩

/-- Characterisation of one forward step on well-shaped data: it succeeds, and
entry `k` of the new score column is the max of the candidates scaled by the
emission factor, while entry `k` of the new backpointer column is the argmax of
the candidates reduced mod 256 (uint8 storage). -/
theorem stepCol_spec {A : List (List ℚ)} {prev col : List ℚ}
    (hrect : ∀ row ∈ A, row.length = A.length)
    (hprev : prev.length = A.length) (hcol : col.length = A.length) :
    ∃ sc bp, stepCol A prev col = some (sc, bp) ∧ sc.length = A.length ∧ bp.length = A.length ∧
      ∀ k, k < A.length →
        sc.get? k = vecMax ((candOf A prev k).map fun q => q * col.getD k 0) ∧
        bp.get? k = (argmaxFirst (candOf A prev k)).map fun i => i % 256 := by
  match A, hrect, hprev, hcol with
  | [], _, hprev, hcol =>
    have h1 : prev = [] := List.length_eq_zero.mp (by simpa using hprev)
    have h2 : col = [] := List.length_eq_zero.mp (by simpa using hcol)
    subst h1; subst h2
    exact ⟨[], [], rfl, rfl, rfl, fun k hk => absurd hk (by simp)⟩
  | r0 :: A2, hrect, hprev, hcol =>
    set A := r0 :: A2 with hA
    have hKpos : 0 < A.length := by simp [hA]
    set B := List.zipWith (fun p row => row.map fun a => p * a) prev A with hB
    have hBlen : B.length = A.length := by
      rw [hB, List.length_zipWith, hprev]
      exact Nat.min_self _
    have hBne : B ≠ [] := List.length_pos.mp (by rw [hBlen]; exact hKpos)
    have hBrect : ∀ row ∈ B, row.length = A.length := by
      apply forall_mem_of_get?
      intro j row hj
      have hjlt : j < B.length := by
        rcases List.get?_eq_some.mp hj with ⟨h, _⟩
        exact h
      have hAj : A.get? j = some (A.getD j []) := get?_some_of_lt [] (by rw [← hBlen]; exact hjlt)
      have hpj : prev.get? j = some (prev.getD j 0) :=
        get?_some_of_lt 0 (by rw [hprev, ← hBlen]; exact hjlt)
      rw [hB, List.get?_eq_getElem?, List.getElem?_zipWith, ← List.get?_eq_getElem?,
        ← List.get?_eq_getElem?, hAj, hpj] at hj
      simp only [Option.some.injEq] at hj
      rw [← hj, List.length_map]
      exact hrect _ (getD_mem_of_lt [] (by rw [← hBlen]; exact hjlt))
    have hT := transposeQ_spec hBne hBrect
    have hTrect : ∀ row ∈ transposeQ B, row.length = A.length := by
      apply forall_mem_of_get?
      intro k row hk
      have hklt : k < (transposeQ B).length := by
        rcases List.get?_eq_some.mp hk with ⟨h, _⟩
        exact h
      rw [hT.2 k (by rw [← hT.1]; exact hklt)] at hk
      simp only [Option.some.injEq] at hk
      rw [← hk, List.length_map, hBlen]
    have hTne : ∀ row ∈ transposeQ B, row ≠ [] := fun row hrow =>
      List.length_pos.mp (by rw [hTrect row hrow]; exact hKpos)
    obtain ⟨scores, hscores⟩ :=
      mapOpt_isSome (f := fun rc => vecMax (rc.1.map fun q => q * rc.2)) (l := (transposeQ B).zip col)
        (by
          intro rc hrc
          have h1 : rc.1 ∈ transposeQ B := (List.of_mem_zip (by rwa [← Prod.mk.eta (p := rc)] at hrc)).1
          have h2 : rc.1.map (fun q => q * rc.2) ≠ [] := by
            simpa using hTne rc.1 h1
          obtain ⟨m, hm⟩ := vecMax_isSome h2
          simp [hm])
    obtain ⟨bps, hbps⟩ :=
      mapOpt_isSome (f := fun row => Option.map (fun i => i % 256) (argmaxFirst row)) (l := transposeQ B)
        (by
          intro row hrow
          obtain ⟨r, hr⟩ := argmaxFirst_isSome (hTne row hrow)
          simp [hr])
    have hscLen : scores.length = A.length := by
      rw [mapOpt_some_length hscores, List.length_zip, hT.1, hcol]
      exact Nat.min_self _
    have hbpLen : bps.length = A.length := by
      rw [mapOpt_some_length hbps, hT.1]
    have hrun : stepCol A prev col = some (scores, bps) := by
      rw [stepCol]
      rw [if_pos hprev, ← hB]
      rw [if_pos (by rw [hT.1, hcol])]
      rw [hscores, Option.some_bind]
      rw [if_pos hscLen]
      rw [hbps, Option.some_bind]
    refine ⟨scores, bps, hrun, hscLen, hbpLen, ?_⟩
    intro k hk
    have hMk : (transposeQ B).get? k = some (candOf A prev k) := by
      rw [hT.2 k hk, zipScale_map_getD k A prev hprev]
    have hzipk : ((transposeQ B).zip col).get? k = some (candOf A prev k, col.getD k 0) := by
      rw [List.zip_eq_zipWith, List.get?_eq_getElem?, List.getElem?_zipWith,
        ← List.get?_eq_getElem?, ← List.get?_eq_getElem?, hMk,
        get?_some_of_lt (0:ℚ) (by rw [hcol]; exact hk)]
    constructor
    · have := mapOpt_some_get hscores k
      rw [hzipk, Option.some_bind] at this
      exact this.symm
    · have := mapOpt_some_get hbps k
      rw [hMk, Option.some_bind] at this
      exact this.symm

/-- Characterisation of the forward loop on well-shaped data: it succeeds, all
columns have K entries, and consecutive columns are linked by `stepCol` with the
right emission column. -/
theorem runSteps_spec {A E : List (List ℚ)} {N : ℕ}
    (hA : ∀ row ∈ A, row.length = A.length) (hEK : E.length = A.length)
    (hE : ∀ row ∈ E, row.length = N) :
    ∀ (rest : List ℕ) (prev : List ℚ), (∀ s ∈ rest, s < N) → prev.length = A.length →
    ∃ scs bps, runSteps A E rest prev = some (scs, bps) ∧
      scs.length = rest.length ∧ bps.length = rest.length ∧
      (∀ c ∈ scs, c.length = A.length) ∧ (∀ c ∈ bps, c.length = A.length) ∧
      ∀ i, i < rest.length →
        ∃ col, col.length = A.length ∧
          (∀ k, k < A.length → col.getD k 0 = (E.getD k []).getD (rest.getD i 0) 0) ∧
          stepCol A ((prev :: scs).getD i []) col = some (scs.getD i [], bps.getD i []) := by
  intro rest
  induction rest with
  | nil =>
    intro prev _ _
    exact ⟨[], [], rfl, rfl, rfl, by simp, by simp, fun i hi => absurd hi (by simp)⟩
  | cons s rest2 ih =>
    intro prev hobs hprev
    obtain ⟨col, hcol, hclen, hcpt⟩ := getCol_spec hE (hobs s (by simp))
    have hclen' : col.length = A.length := by rw [hclen, hEK]
    obtain ⟨sc, bp, hstep, hsclen, hbplen, _⟩ := stepCol_spec hA hprev hclen'
    obtain ⟨scs, bps, hrun, hslen, hblen, hsall, hball, hchain⟩ :=
      ih sc (fun a ha => hobs a (by simp [ha])) hsclen
    refine ⟨sc :: scs, bp :: bps, ?_, by simp [hslen], by simp [hblen], ?_, ?_, ?_⟩
    · rw [runSteps, hcol, Option.some_bind, hstep, Option.some_bind, hrun, Option.some_bind]
    · intro c hc
      rcases List.mem_cons.mp hc with h | h
      · rw [h]; exact hsclen
      · exact hsall c h
    · intro c hc
      rcases List.mem_cons.mp hc with h | h
      · rw [h]; exact hbplen
      · exact hball c h
    · intro i hi
      cases i with
      | zero =>
        refine ⟨col, hclen', ?_, ?_⟩
        · intro k hk
          simpa using hcpt k (by rw [hEK]; exact hk)
        · simpa using hstep
      | succ i =>
        obtain ⟨col2, h1, h2, h3⟩ := hchain i (by simpa using hi)
        exact ⟨col2, h1, by simpa using h2, by simpa using h3⟩

/-- Characterisation of the two tracking tables on a structurally valid input:
they are built, have one column per observation, all columns have K entries,
the initial score column is `initial[k] * emission[k, y[0]]`, and consecutive
columns are linked by `stepCol` with the right emission column. -/
theorem tables_spec {y : List ℕ} {A E : List (List ℚ)} {ini : List ℚ} {N : ℕ}
    (hv : ValidShapes y A E ini N) :
    ∃ cols bps, tables y A E ini = some (cols, bps) ∧
      cols.length = y.length ∧ bps.length = y.length ∧
      (∀ c ∈ cols, c.length = A.length) ∧ (∀ c ∈ bps, c.length = A.length) ∧
      bps.getD 0 [] = List.replicate A.length 0 ∧
      (∀ k, k < A.length →
        (cols.getD 0 []).getD k 0 = ini.getD k 0 * (E.getD k []).getD (y.getD 0 0) 0) ∧
      ∀ t, t + 1 < y.length →
        ∃ col, col.length = A.length ∧
          (∀ k, k < A.length → col.getD k 0 = (E.getD k []).getD (y.getD (t + 1) 0) 0) ∧
          stepCol A (cols.getD t []) col = some (cols.getD (t + 1) [], bps.getD (t + 1) []) := by
  obtain ⟨hA, hEK, hE, hini, hyne, hobs⟩ := hv
  match y, hyne, hobs with
  | y0 :: rest, _, hobs =>
    obtain ⟨col0, hcol0, hc0len, hc0pt⟩ := getCol_spec hE (hobs y0 (by simp))
    have hc0len' : col0.length = A.length := by rw [hc0len, hEK]
    have hmul : elemMul ini col0 = some (List.zipWith (fun a b => a * b) ini col0) := by
      rw [elemMul, if_pos (by rw [hini, hc0len'])]
    set c0 := List.zipWith (fun a b => a * b) ini col0 with hc0
    have hc0L : c0.length = A.length := by
      rw [hc0, List.length_zipWith, hini, hc0len']
      exact Nat.min_self _
    obtain ⟨scs, bps, hrun, hslen, hblen, hsall, hball, hchain⟩ :=
      runSteps_spec hA hEK hE rest c0 (fun a ha => hobs a (by simp [ha])) hc0L
    refine ⟨c0 :: scs, List.replicate A.length 0 :: bps, ?_, by simp [hslen], by simp [hblen],
      ?_, ?_, by simp, ?_, ?_⟩
    · rw [tables, hcol0, Option.some_bind, hmul, Option.some_bind, if_pos hc0L, hrun,
        Option.some_bind]
    · intro c hc
      rcases List.mem_cons.mp hc with h | h
      · rw [h]; exact hc0L
      · exact hsall c h
    · intro c hc
      rcases List.mem_cons.mp hc with h | h
      · rw [h]; simp
      · exact hball c h
    · intro k hk
      have hk1 : k < ini.length := by rw [hini]; exact hk
      have hk2 : k < col0.length := by rw [hc0len']; exact hk
      have hzip : c0.getD k 0 = ini.getD k 0 * col0.getD k 0 := by
        rw [hc0, List.getD_eq_getD_get?, List.get?_eq_getElem?, List.getElem?_zipWith,
          ← List.get?_eq_getElem?, ← List.get?_eq_getElem?,
          get?_some_of_lt (0:ℚ) hk1, get?_some_of_lt (0:ℚ) hk2]
        rfl
      have hce : col0.getD k 0 = (E.getD k []).getD y0 0 := hc0pt k (by rw [hEK]; exact hk)
      simp only [List.getD_cons_zero]
      rw [hzip, hce]
    · intro t ht
      obtain ⟨col, h1, h2, h3⟩ := hchain t (by simpa using ht)
      refine ⟨col, h1, ?_, ?_⟩
      · intro k hk
        simpa using h2 k hk
      · simpa using h3

/-- The candidate list has one entry per source state. -/
theorem candOf_length (A : List (List ℚ)) (prev : List ℚ) (k : ℕ) :
    (candOf A prev k).length = A.length := by
  simp [candOf]

/-- Entry `j` of the candidate list is `prev[j] * A[j][k]`. -/
theorem candOf_getD {A : List (List ℚ)} {prev : List ℚ} {k j : ℕ} (hj : j < A.length) :
    (candOf A prev k).getD j 0 = prev.getD j 0 * (A.getD j []).getD k 0 := by
  rw [candOf, List.getD_eq_getD_get?, List.get?_map, List.get?_range hj]
  rfl

/-- One forward step of a run, unfolded: at time `t+1` and state `k` the stored
backpointer is the candidate argmax mod 256, and the stored score is the
candidate value at the argmax times the emission factor. -/
theorem step_identity {y : List ℕ} {A E : List (List ℚ)} {ini : List ℚ} {N : ℕ}
    (hv : ValidShapes y A E ini N) (hEnn : ∀ row ∈ E, ∀ q ∈ row, 0 ≤ q)
    {cols : List (List ℚ)} {bps : List (List ℕ)}
    (htab : tables y A E ini = some (cols, bps))
    {t k : ℕ} (ht : t + 1 < y.length) (hk : k < A.length) :
    ∃ r, argmaxFirst (candOf A (cols.getD t []) k) = some r ∧ r < A.length ∧
      (∀ j, j < A.length →
        (candOf A (cols.getD t []) k).getD j 0 ≤ (candOf A (cols.getD t []) k).getD r 0) ∧
      (∀ j, j < r →
        (candOf A (cols.getD t []) k).getD j 0 < (candOf A (cols.getD t []) k).getD r 0) ∧
      (bps.getD (t + 1) []).getD k 0 = r % 256 ∧
      (cols.getD (t + 1) []).getD k 0 =
        (cols.getD t []).getD r 0 * (A.getD r []).getD k 0 *
          (E.getD k []).getD (y.getD (t + 1) 0) 0 := by
  obtain ⟨cols', bps', htab', hclen, hblen, hcall, hball, _, _, hchain⟩ := tables_spec hv
  rw [htab] at htab'
  injection htab' with hpair
  injection hpair with h1 h2
  subst h1
  subst h2
  obtain ⟨col, hcolLen, hcolPt, hstep⟩ := hchain t ht
  have hprevLen : (cols.getD t []).length = A.length :=
    hcall _ (getD_mem_of_lt [] (by rw [hclen]; omega))
  obtain ⟨sc, bp, hstep', hscLen, hbpLen, hpt⟩ := stepCol_spec hv.1 hprevLen hcolLen
  rw [hstep] at hstep'
  injection hstep' with hpair2
  injection hpair2 with h3 h4
  subst h3
  subst h4
  set cand := candOf A (cols.getD t []) k with hcand
  have hcandne : cand ≠ [] := by
    rw [hcand]
    exact List.length_pos.mp (by rw [candOf_length]; omega)
  obtain ⟨r, hr⟩ := argmaxFirst_isSome hcandne
  obtain ⟨hrlt, hmax, hle, hlt⟩ := argmaxFirst_spec hr
  rw [candOf_length] at hrlt
  have he : 0 ≤ col.getD k 0 := by
    rw [hcolPt k hk]
    by_cases hs : y.getD (t + 1) 0 < N
    · have hrow : E.getD k [] ∈ E := getD_mem_of_lt [] (by rw [hv.2.1]; exact hk)
      have hlenrow : (E.getD k []).length = N := hv.2.2.1 _ hrow
      exact hEnn _ hrow _ (getD_mem_of_lt 0 (by rw [hlenrow]; exact hs))
    · have hlenrow : (E.getD k []).length = N :=
        hv.2.2.1 _ (getD_mem_of_lt [] (by rw [hv.2.1]; exact hk))
      rw [List.getD_eq_getD_get?, List.get?_len_le (by rw [hlenrow]; exact not_lt.mp hs)]
      rfl
  refine ⟨r, hr, hrlt, fun j hj => hle j (by rw [hcand, candOf_length]; exact hj), hlt, ?_, ?_⟩
  · have hb := (hpt k hk).2
    rw [hr] at hb
    exact getD_of_get?_eq 0 hb
  · have hs := (hpt k hk).1
    rw [vecMax_map_mul he, hmax] at hs
    have := getD_of_get?_eq 0 hs
    rw [this, candOf_getD hrlt, hcolPt k hk]

/-- Every entry stored in the backpointer table is a state index below K. -/
theorem bps_entries_lt {y : List ℕ} {A E : List (List ℚ)} {ini : List ℚ} {N : ℕ}
    (hv : ValidShapes y A E ini N) (hEnn : ∀ row ∈ E, ∀ q ∈ row, 0 ≤ q)
    {cols : List (List ℚ)} {bps : List (List ℕ)}
    (htab : tables y A E ini = some (cols, bps)) (hK : 0 < A.length) :
    ∀ c ∈ bps, ∀ v ∈ c, v < A.length := by
  obtain ⟨cols', bps', htab', hclen, hblen, hcall, hball, hsent, hinit, hchain⟩ := tables_spec hv
  rw [htab] at htab'
  injection htab' with hpair
  injection hpair with h1 h2
  subst h1
  subst h2
  intro c hc v hvc
  obtain ⟨i, hic⟩ := List.mem_iff_get?.mp hc
  have hilen : i < bps.length := (List.get?_eq_some.mp hic).1
  have hcgetD : bps.getD i [] = c := getD_of_get?_eq [] hic
  cases i with
  | zero =>
    rw [hsent] at hcgetD
    rw [← hcgetD] at hvc
    rw [(List.mem_replicate.mp hvc).2]
    exact hK
  | succ t =>
    obtain ⟨k, hkc⟩ := List.mem_iff_get?.mp hvc
    have hkl : k < c.length := (List.get?_eq_some.mp hkc).1
    have hklA : k < A.length := by
      rw [← hball c hc]
      exact hkl
    obtain ⟨r, _, hrlt, _, _, hbpk, _⟩ :=
      step_identity hv hEnn htab (show t + 1 < y.length from by rw [← hblen]; exact hilen) hklA
    rw [hcgetD] at hbpk
    rw [getD_of_get?_eq 0 hkc] at hbpk
    rw [hbpk]
    exact Nat.lt_of_le_of_lt (Nat.mod_le r 256) hrlt

/-- The backtracking loop succeeds, produces `i + 1` states ending in the start
state `cur`, and every state on the path is below K. -/
theorem backtraceFrom_struct {bps : List (List ℕ)} {K : ℕ}
    (hlen : ∀ c ∈ bps, c.length = K) (hent : ∀ c ∈ bps, ∀ v ∈ c, v < K) :
    ∀ (i cur : ℕ), cur < K → i < bps.length →
      ∃ p, backtraceFrom bps cur i = some p ∧ p.length = i + 1 ∧ p.getD i 0 = cur ∧
        ∀ v ∈ p, v < K := by
  intro i
  induction i with
  | zero =>
    intro cur hcur _
    exact ⟨[cur], rfl, rfl, rfl, by simp [hcur]⟩
  | succ i ih =>
    intro cur hcur hi
    have hgc : bps.get? (i + 1) = some (bps.getD (i + 1) []) := get?_some_of_lt [] hi
    have hmem : bps.getD (i + 1) [] ∈ bps := getD_mem_of_lt [] hi
    have hcl : (bps.getD (i + 1) []).length = K := hlen _ hmem
    have hgv : (bps.getD (i + 1) []).get? cur = some ((bps.getD (i + 1) []).getD cur 0) :=
      get?_some_of_lt 0 (by rw [hcl]; exact hcur)
    have hprvlt : (bps.getD (i + 1) []).getD cur 0 < K :=
      hent _ hmem _ (getD_mem_of_lt 0 (by rw [hcl]; exact hcur))
    obtain ⟨rest, hrest, hrl, hrlast, hrent⟩ := ih _ hprvlt (by omega)
    refine ⟨rest ++ [cur], ?_, by simp [hrl], ?_, ?_⟩
    · rw [backtraceFrom, hgc, Option.some_bind, hgv, Option.some_bind, hrest, Option.some_bind]
    · rw [List.getD_eq_getD_get?, List.get?_eq_getElem?, ← hrl, List.getElem?_concat_length]
      rfl
    · intro v hvp
      rcases List.mem_append.mp hvp with h | h
      · exact hrent v h
      · rw [List.mem_singleton.mp h]
        exact hcur

/-- `probUpTo` only reads the path at positions up to `t`. -/
theorem probUpTo_congr {y : List ℕ} {A E : List (List ℚ)} {ini : List ℚ} {p q : List ℕ} :
    ∀ {t : ℕ}, (∀ j, j ≤ t → p.getD j 0 = q.getD j 0) →
      probUpTo y A E ini p t = probUpTo y A E ini q t := by
  intro t
  induction t with
  | zero =>
    intro h
    simp only [probUpTo, h 0 (le_refl 0)]
  | succ t ih =>
    intro h
    simp only [probUpTo]
    rw [ih fun j hj => h j (by omega), h t (by omega), h (t + 1) (le_refl _)]

/-- Invariant of the backtracking loop: the recomputed joint probability of the
backtraced partial path up to time `i` is exactly the score table entry of its
final state (this needs the backpointer indices to be stored exactly, so K ≤ 256,
and non-negative emission entries). -/
theorem backtrace_prob {y : List ℕ} {A E : List (List ℚ)} {ini : List ℚ} {N : ℕ}
    (hv : ValidShapes y A E ini N) (hEnn : ∀ row ∈ E, ∀ q ∈ row, 0 ≤ q)
    {cols : List (List ℚ)} {bps : List (List ℕ)}
    (htab : tables y A E ini = some (cols, bps)) (hK : 0 < A.length)
    (hK256 : A.length ≤ 256) :
    ∀ (i cur : ℕ) (p : List ℕ), i < y.length → cur < A.length →
      backtraceFrom bps cur i = some p →
      probUpTo y A E ini p i = (cols.getD i []).getD cur 0 := by
  obtain ⟨cols', bps', htab', hclen, hblen, hcall, hball, hsent, hinit, hchain⟩ := tables_spec hv
  rw [htab] at htab'
  injection htab' with hpair
  injection hpair with h1 h2
  subst h1
  subst h2
  have hent : ∀ c ∈ bps, ∀ v ∈ c, v < A.length := bps_entries_lt hv hEnn htab hK
  intro i
  induction i with
  | zero =>
    intro cur p _ hcur hbt
    have hp : [cur] = p := by
      injection hbt with h
    rw [← hp]
    have : probUpTo y A E ini [cur] 0
        = ini.getD cur 0 * (E.getD cur []).getD (y.getD 0 0) 0 := by
      simp [probUpTo]
    rw [this, ← hinit cur hcur]
  | succ i ih =>
    intro cur p hi hcur hbt
    rw [backtraceFrom] at hbt
    rw [get?_some_of_lt [] (by rw [hblen]; exact hi), Option.some_bind] at hbt
    have hcl : (bps.getD (i + 1) []).length = A.length :=
      hball _ (getD_mem_of_lt [] (by rw [hblen]; exact hi))
    rw [get?_some_of_lt 0 (by rw [hcl]; exact hcur), Option.some_bind] at hbt
    obtain ⟨r, hr, hrlt, _, _, hbpk, hscore⟩ :=
      step_identity hv hEnn htab (show i + 1 < y.length from hi) hcur
    have hprv : (bps.getD (i + 1) []).getD cur 0 = r := by
      rw [hbpk]
      exact Nat.mod_eq_of_lt (lt_of_lt_of_le hrlt hK256)
    rw [hprv] at hbt
    cases hrest : backtraceFrom bps r i with
    | none =>
      rw [hrest] at hbt
      cases hbt
    | some rest =>
      rw [hrest, Option.some_bind] at hbt
      injection hbt with hp
      obtain ⟨rest', hrest', hrl, hrlast, _⟩ :=
        backtraceFrom_struct hball hent i r hrlt (by rw [hblen]; omega)
      rw [hrest] at hrest'
      injection hrest' with hre
      subst hre
      have hres := ih r rest (by omega) hrlt hrest
      rw [← hp]
      simp only [probUpTo]
      have hgetlast : (rest ++ [cur]).getD (i + 1) 0 = cur := by
        rw [List.getD_eq_getD_get?, List.get?_eq_getElem?, ← hrl, List.getElem?_concat_length]
        rfl
      have hgeti : (rest ++ [cur]).getD i 0 = r := by
        rw [List.getD_append _ _ _ _ (by rw [hrl]; omega)]
        exact hrlast
      have hcongr : probUpTo y A E ini (rest ++ [cur]) i = probUpTo y A E ini rest i :=
        probUpTo_congr fun j hj =>
          List.getD_append _ _ _ _ (by rw [hrl]; omega)
      rw [hcongr, hres, hgetlast, hgeti, ← hscore]

/-- C1 (amended): for every structurally valid input, the score table satisfies
`score[k,0] = initial[k] * emission[k, y[0]]` and, for `1 ≤ t < T` and `k < K`,
`score[k,t] = max over j of (score[j,t-1] * transition[j,k] * emission[k, y[t]])`,
while the backpointer table satisfies
`backpointer[k,t] = (argmax over j of score[j,t-1] * transition[j,k]) mod 256` —
the stored value is the claimed argmax reduced mod 256 because T2 is a uint8
table; the two agree whenever K ≤ 256. -/
theorem C1_table_recurrence {y : List ℕ} {A E : List (List ℚ)} {ini : List ℚ} {N : ℕ}
    (hv : ValidShapes y A E ini N) :
    (∀ k, k < A.length →
      scoreEntry y A E ini 0 k = some (ini.getD k 0 * (E.getD k []).getD (y.getD 0 0) 0)) ∧
    ∀ t k, 1 ≤ t → t < y.length → k < A.length →
      scoreEntry y A E ini t k = claimedScore y A E ini t k ∧
      bpEntry y A E ini t k = (claimedArgmax y A E ini t k).map fun i => i % 256 := by
  obtain ⟨cols, bps, htab, hclen, hblen, hcall, hball, hsent, hinit, hchain⟩ := tables_spec hv
  have hTpos : 0 < y.length := List.length_pos.mpr hv.2.2.2.2.1
  have hscol : ∀ t, t < y.length → scoreCol y A E ini t = some (cols.getD t []) := by
    intro t ht
    rw [scoreCol, htab, Option.some_bind, get?_some_of_lt [] (by rw [hclen]; exact ht)]
  have hbcol : ∀ t, t < y.length → bpCol y A E ini t = some (bps.getD t []) := by
    intro t ht
    rw [bpCol, htab, Option.some_bind, get?_some_of_lt [] (by rw [hblen]; exact ht)]
  constructor
  · intro k hk
    have hl : k < (cols.getD 0 []).length := by
      rw [hcall _ (getD_mem_of_lt [] (by rw [hclen]; exact hTpos))]
      exact hk
    simp only [scoreEntry, hscol 0 hTpos, Option.some_bind]
    rw [get?_some_of_lt 0 hl, hinit k hk]
  · intro t k h1 ht hk
    obtain ⟨s, rfl⟩ : ∃ s, t = s + 1 := ⟨t - 1, by omega⟩
    obtain ⟨col, hcolLen, hcolPt, hstep⟩ := hchain s ht
    have hprevLen : (cols.getD s []).length = A.length :=
      hcall _ (getD_mem_of_lt [] (by rw [hclen]; omega))
    obtain ⟨sc, bp, hstep', hscLen, hbpLen, hpt⟩ := stepCol_spec hv.1 hprevLen hcolLen
    rw [hstep] at hstep'
    injection hstep' with hp2
    injection hp2 with h3 h4
    subst h3
    subst h4
    have hcand : candList y A E ini (s + 1) k = some (candOf A (cols.getD s []) k) := by
      rw [candList, show s + 1 - 1 = s from rfl, hscol s (by omega), Option.some_bind]
    have hemm : col.getD k 0 = emissionAt E y (s + 1) k := by
      rw [hcolPt k hk, emissionAt]
    constructor
    · simp only [scoreEntry, hscol (s + 1) ht, Option.some_bind, claimedScore, hcand]
      rw [(hpt k hk).1, hemm]
    · simp only [bpEntry, hbcol (s + 1) ht, Option.some_bind, claimedArgmax, hcand]
      rw [(hpt k hk).2]

/-- C2 (amended): for every valid input with K ≤ 256 states (so that all uint8
backpointer and path entries are stored exactly), if `viterbi` returns a path
and a probability, then recomputing the joint probability of that path directly
from the inputs gives exactly the returned probability. -/
theorem C2_path_probability {y : List ℕ} {A E : List (List ℚ)} {ini : List ℚ} {N : ℕ}
    (hv : ValidInput y A E ini N) (hK256 : A.length ≤ 256)
    {path : List ℕ} {prob : ℚ} (h : viterbi y A E ini = some (path, prob)) :
    recomputedProb y A E ini path = prob := by
  obtain ⟨hvs, hnn⟩ := hv
  obtain ⟨cols, bps, htab, hclen, hblen, hcall, hball, hsent, hinit, hchain⟩ := tables_spec hvs
  have hTpos : 0 < y.length := List.length_pos.mpr hvs.2.2.2.2.1
  simp only [viterbi, htab, Option.some_bind] at h
  rw [get?_some_of_lt [] (by rw [hclen]; omega)] at h
  simp only [Option.some_bind] at h
  have hlcl : (cols.getD (y.length - 1) []).length = A.length :=
    hcall _ (getD_mem_of_lt [] (by rw [hclen]; omega))
  cases hf : argmaxFirst (cols.getD (y.length - 1) []) with
  | none => rw [hf] at h; cases h
  | some f =>
    rw [hf] at h
    simp only [Option.some_bind] at h
    obtain ⟨hflt, hfmax, _, _⟩ := argmaxFirst_spec hf
    have hfK : f < A.length := by rw [← hlcl]; exact hflt
    have hK : 0 < A.length := by omega
    have hfm : f % 256 = f := Nat.mod_eq_of_lt (lt_of_lt_of_le hfK hK256)
    rw [hfm] at h
    cases hbt : backtraceFrom bps f (y.length - 1) with
    | none => rw [hbt] at h; cases h
    | some p =>
      rw [hbt] at h
      simp only [Option.some_bind] at h
      rw [hfmax] at h
      simp only [Option.some_bind] at h
      injection h with hpair
      injection hpair with h1 h2
      subst h1
      subst h2
      have hres := backtrace_prob hvs hnn.2.1 htab hK hK256 (y.length - 1) f p
        (by omega) hfK hbt
      rw [recomputedProb, hres]

/-- C5 (amended): for every valid input with K ≤ 256 (uint8 index storage is then
exact), ties are broken to the lowest index: every stored backpointer entry is
the lowest-indexed source state attaining the maximum of its candidate list, and
the final state placed at the end of the returned path is the lowest-indexed
state attaining the maximum of the last score column. -/
theorem C5_lowest_index_tie_break {y : List ℕ} {A E : List (List ℚ)} {ini : List ℚ} {N : ℕ}
    (hv : ValidInput y A E ini N) (hK256 : A.length ≤ 256) :
    (∀ t k r, 1 ≤ t → t < y.length → k < A.length →
      bpEntry y A E ini t k = some r →
      ∃ l, candList y A E ini t k = some l ∧ r < l.length ∧
        (∀ j, j < l.length → l.getD j 0 ≤ l.getD r 0) ∧
        ∀ j, j < r → l.getD j 0 < l.getD r 0) ∧
    ∀ path prob, viterbi y A E ini = some (path, prob) →
      ∃ lastCol, scoreCol y A E ini (y.length - 1) = some lastCol ∧
        path.getD (y.length - 1) 0 < lastCol.length ∧
        (∀ j, j < lastCol.length →
          lastCol.getD j 0 ≤ lastCol.getD (path.getD (y.length - 1) 0) 0) ∧
        ∀ j, j < path.getD (y.length - 1) 0 →
          lastCol.getD j 0 < lastCol.getD (path.getD (y.length - 1) 0) 0 := by
  obtain ⟨hvs, hnn⟩ := hv
  obtain ⟨cols, bps, htab, hclen, hblen, hcall, hball, hsent, hinit, hchain⟩ := tables_spec hvs
  have hTpos : 0 < y.length := List.length_pos.mpr hvs.2.2.2.2.1
  have hscol : ∀ t, t < y.length → scoreCol y A E ini t = some (cols.getD t []) := by
    intro t ht
    rw [scoreCol, htab, Option.some_bind, get?_some_of_lt [] (by rw [hclen]; exact ht)]
  constructor
  · intro t k r h1 ht hk hbpe
    obtain ⟨s, rfl⟩ : ∃ s, t = s + 1 := ⟨t - 1, by omega⟩
    obtain ⟨r', hr', hrlt', hle', hlt', hbpk', _⟩ := step_identity hvs hnn.2.1 htab ht hk
    have hbv : bpEntry y A E ini (s + 1) k = some ((bps.getD (s + 1) []).getD k 0) := by
      have hbl : k < (bps.getD (s + 1) []).length := by
        rw [hball _ (getD_mem_of_lt [] (by rw [hblen]; exact ht))]
        exact hk
      simp only [bpEntry, bpCol, htab, Option.some_bind]
      rw [get?_some_of_lt [] (by rw [hblen]; exact ht)]
      simp only [Option.some_bind]
      rw [get?_some_of_lt 0 hbl]
    rw [hbv] at hbpe
    injection hbpe with hre
    have hrr : r = r' := by
      rw [← hre, hbpk']
      exact Nat.mod_eq_of_lt (lt_of_lt_of_le hrlt' hK256)
    subst hrr
    refine ⟨candOf A (cols.getD s []) k, ?_, by rw [candOf_length]; exact hrlt',
      fun j hj => hle' j (by rw [← candOf_length A (cols.getD s []) k]; exact hj), hlt'⟩
    rw [candList, show s + 1 - 1 = s from rfl, hscol s (by omega), Option.some_bind]
  · intro path prob h
    simp only [viterbi, htab, Option.some_bind] at h
    rw [get?_some_of_lt [] (by rw [hclen]; omega)] at h
    simp only [Option.some_bind] at h
    have hlcl : (cols.getD (y.length - 1) []).length = A.length :=
      hcall _ (getD_mem_of_lt [] (by rw [hclen]; omega))
    cases hf : argmaxFirst (cols.getD (y.length - 1) []) with
    | none => rw [hf] at h; cases h
    | some f =>
      rw [hf] at h
      simp only [Option.some_bind] at h
      obtain ⟨hflt, hfmax, hfle, hflt2⟩ := argmaxFirst_spec hf
      have hfK : f < A.length := by rw [← hlcl]; exact hflt
      have hK : 0 < A.length := by omega
      have hfm : f % 256 = f := Nat.mod_eq_of_lt (lt_of_lt_of_le hfK hK256)
      rw [hfm] at h
      cases hbt : backtraceFrom bps f (y.length - 1) with
      | none => rw [hbt] at h; cases h
      | some p =>
        rw [hbt] at h
        simp only [Option.some_bind] at h
        rw [hfmax] at h
        simp only [Option.some_bind] at h
        injection h with hpair
        injection hpair with h1 h2
        subst h1
        subst h2
        have hent : ∀ c ∈ bps, ∀ v ∈ c, v < A.length :=
          bps_entries_lt hvs hnn.2.1 htab hK
        obtain ⟨p', hp', hplen, hplast, _⟩ :=
          backtraceFrom_struct hball hent (y.length - 1) f hfK (by rw [hblen]; omega)
        rw [hbt] at hp'
        injection hp' with hpe
        subst hpe
        rw [hplast]
        exact ⟨cols.getD (y.length - 1) [], hscol _ (by omega), hflt, hfle, hflt2⟩

/-- C6 (amended): for every valid input, whenever the emission factor
`emission[k, y[t]]` is strictly positive, the backpointer argmax computed
without the emission factor selects the same predecessor, including under ties,
as the argmax of the full score expression.  (Counterexample `C6_counterexample`
shows the claim fails when the emission factor is 0, which valid inputs allow.) -/
theorem C6_argmax_drop_emission {y : List ℕ} {A E : List (List ℚ)} {ini : List ℚ} {N : ℕ}
    (hv : ValidInput y A E ini N) :
    ∀ t k, 1 ≤ t → t < y.length → k < A.length → 0 < emissionAt E y t k →
      fullArgmax y A E ini t k = claimedArgmax y A E ini t k := by
  intro t k _ _ _ he
  rw [fullArgmax, claimedArgmax]
  cases hc : candList y A E ini t k with
  | none => rfl
  | some l =>
    simp only [Option.some_bind]
    exact argmaxFirst_map_mul he l

/-- C7: for every valid input, if `viterbi` returns, the returned path has
exactly T entries and every entry is a state index in [0, K).  (This holds for
every K: stored uint8 indices are `r % 256 ≤ r < K`.) -/
theorem C7_path_shape {y : List ℕ} {A E : List (List ℚ)} {ini : List ℚ} {N : ℕ}
    (hv : ValidInput y A E ini N)
    {path : List ℕ} {prob : ℚ} (h : viterbi y A E ini = some (path, prob)) :
    path.length = y.length ∧ ∀ v ∈ path, v < A.length := by
  obtain ⟨hvs, hnn⟩ := hv
  obtain ⟨cols, bps, htab, hclen, hblen, hcall, hball, hsent, hinit, hchain⟩ := tables_spec hvs
  have hTpos : 0 < y.length := List.length_pos.mpr hvs.2.2.2.2.1
  simp only [viterbi, htab, Option.some_bind] at h
  rw [get?_some_of_lt [] (by rw [hclen]; omega)] at h
  simp only [Option.some_bind] at h
  have hlcl : (cols.getD (y.length - 1) []).length = A.length :=
    hcall _ (getD_mem_of_lt [] (by rw [hclen]; omega))
  cases hf : argmaxFirst (cols.getD (y.length - 1) []) with
  | none => rw [hf] at h; cases h
  | some f =>
    rw [hf] at h
    simp only [Option.some_bind] at h
    obtain ⟨hflt, hfmax, _, _⟩ := argmaxFirst_spec hf
    have hfK : f < A.length := by rw [← hlcl]; exact hflt
    have hK : 0 < A.length := by omega
    have hfm : f % 256 < A.length := Nat.lt_of_le_of_lt (Nat.mod_le f 256) hfK
    cases hbt : backtraceFrom bps (f % 256) (y.length - 1) with
    | none => rw [hbt] at h; cases h
    | some p =>
      rw [hbt] at h
      simp only [Option.some_bind] at h
      rw [hfmax] at h
      simp only [Option.some_bind] at h
      injection h with hpair
      injection hpair with h1 h2
      subst h1
      subst h2
      have hent : ∀ c ∈ bps, ∀ v ∈ c, v < A.length :=
        bps_entries_lt hvs hnn.2.1 htab hK
      obtain ⟨p', hp', hplen, _, hpent⟩ :=
        backtraceFrom_struct hball hent (y.length - 1) (f % 256) hfm (by rw [hblen]; omega)
      rw [hbt] at hp'
      injection hp' with hpe
      subst hpe
      exact ⟨by rw [hplen]; omega, hpent⟩

/-- C8: `viterbi` is deterministic — two invocations with identical observation
sequence, transition matrix, emission matrix and initial distribution return the
identical path and probability. -/
theorem C8_deterministic (y1 y2 : List ℕ) (A1 A2 E1 E2 : List (List ℚ)) (i1 i2 : List ℚ)
    (hy : y1 = y2) (hA : A1 = A2) (hE : E1 = E2) (hi : i1 = i2) :
    viterbi y1 A1 E1 i1 = viterbi y2 A2 E2 i2 := by
  subst hy
  subst hA
  subst hE
  subst hi
  rfl

/-- C9: the call does not mutate its arguments — after `viterbiRun` returns, the
observation sequence, transition matrix, emission matrix and initial
distribution fields hold exactly their prior values, and the only written fields
are the freshly computed tables, path and probability of the pure `viterbi`
computation. -/
theorem C9_frame (s t : VState) (h : viterbiRun s = some t) :
    t.y = s.y ∧ t.transition_matrix = s.transition_matrix ∧
    t.emission_matrix = s.emission_matrix ∧ t.initial_state = s.initial_state ∧
    viterbi s.y s.transition_matrix s.emission_matrix s.initial_state
      = some (t.path, t.probability) := by
  rw [viterbiRun] at h
  cases htb : tables s.y s.transition_matrix s.emission_matrix s.initial_state with
  | none => rw [htb] at h; cases h
  | some tb =>
    rw [htb] at h
    simp only [Option.some_bind] at h
    cases hpr : viterbi s.y s.transition_matrix s.emission_matrix s.initial_state with
    | none => rw [hpr] at h; cases h
    | some pr =>
      rw [hpr] at h
      simp only [Option.some_bind] at h
      injection h with h2
      subst h2
      exact ⟨rfl, rfl, rfl, rfl, rfl⟩

/-- The forward loop reads the emission matrix only through the columns of the
observed symbols. -/
theorem runSteps_emission_congr {A E1 E2 : List (List ℚ)} :
    ∀ (rest : List ℕ), (∀ s ∈ rest, getCol E1 s = getCol E2 s) →
      ∀ prev, runSteps A E1 rest prev = runSteps A E2 rest prev := by
  intro rest
  induction rest with
  | nil => intro _ prev; rfl
  | cons s rest2 ih =>
    intro h prev
    rw [runSteps, runSteps, h s (by simp)]
    cases hc : getCol E2 s with
    | none => rfl
    | some col =>
      simp only [Option.some_bind]
      cases hst : stepCol A prev col with
      | none => rfl
      | some sb =>
        simp only [Option.some_bind, ih (fun a ha => h a (by simp [ha])) sb.1]

/-- C10: the output of `viterbi` depends on the emission matrix only through the
columns indexed by symbols that occur in the observation sequence — if two
emission matrices agree on column `y[t]` for every `t`, and the other inputs are
identical, the two runs return the identical result. -/
theorem C10_emission_columns {y : List ℕ} {A E1 E2 : List (List ℚ)} {ini : List ℚ}
    (h : ∀ t, t < y.length → getCol E1 (y.getD t 0) = getCol E2 (y.getD t 0)) :
    viterbi y A E1 ini = viterbi y A E2 ini := by
  have hmem : ∀ s ∈ y, getCol E1 s = getCol E2 s := by
    intro s hs
    obtain ⟨t, htl, hts⟩ := List.mem_iff_getElem.mp hs
    have hgd : y.getD t 0 = s := by
      rw [List.getD_eq_getElem?_getD, List.getElem?_eq_getElem htl, hts]
      rfl
    rw [← hgd]
    exact h t htl
  have htab : tables y A E1 ini = tables y A E2 ini := by
    cases y with
    | nil => rfl
    | cons y0 rest =>
      rw [tables, tables, hmem y0 (by simp)]
      cases hc : getCol E2 y0 with
      | none => rfl
      | some col0 =>
        simp only [Option.some_bind]
        cases hm : elemMul ini col0 with
        | none => rfl
        | some c0 =>
          simp only [Option.some_bind]
          by_cases hl : c0.length = A.length
          · rw [if_pos hl, if_pos hl,
              runSteps_emission_congr rest (fun a ha => hmem a (by simp [ha])) c0]
          · rw [if_neg hl, if_neg hl]
  rw [viterbi, viterbi, htab]

/-- C3: on the reference scenario (observations [0,1,2], the Wikipedia matrices),
`viterbi` returns path [0,0,1] with probability exactly 0.01512 (hence within
1e-6 of it), and on the T = 1 boundary `viterbi [0]` returns the single-element
path [0] (the argmax of `initial[k] * emission[k,0]`) with the recurrence loop
skipped. -/
theorem C3_reference_scenario :
    viterbi [0, 1, 2] Aref Eref piref = some ([0, 0, 1], 1512/100000) ∧
    viterbi [0] Aref Eref piref = some ([0], 3/10) := by
  constructor
  · norm_num [viterbi, tables, runSteps, stepCol, transposeQ, getCol, mapOpt, elemMul,
      vecMax, vecMaxAux, argmaxFirst, argmaxAux, backtraceFrom, Aref, Eref, piref]
  · norm_num [viterbi, tables, runSteps, stepCol, transposeQ, getCol, mapOpt, elemMul,
      vecMax, vecMaxAux, argmaxFirst, argmaxAux, backtraceFrom, Aref, Eref, piref]

/-- C4 (amended): `viterbi` performs no input validation and defines no named
errors.  An empty observation sequence fails with an unhandled index error at
initialisation (modelled `none`), not with an `EmptySequence` error; an
out-of-range observation symbol fails with an unhandled numpy IndexError
(modelled `none`), not with an `InvalidIndex` error; and a call whose transition
matrix is not square can return a normal full result instead of failing with an
`InvalidDimension` error. -/
theorem C4_no_validation :
    (∀ (A E : List (List ℚ)) (ini : List ℚ), viterbi [] A E ini = none) ∧
    viterbi [5] Aref Eref piref = none ∧
    (¬ ∀ row ∈ Abad, row.length = Abad.length) ∧
    viterbi [0] Abad Ebad pibad = some ([2], 2) := by
  refine ⟨fun A E ini => rfl, ?_, by decide, ?_⟩
  · norm_num [viterbi, tables, getCol, mapOpt, Aref, Eref, piref]
  · with_unfolding_all decide

/-- Witness for C4: the general empty-sequence clause applied to the reference
matrices. -/
theorem C4_witness : viterbi [] Aref Eref piref = none :=
  C4_no_validation.1 Aref Eref piref

/-- C6 counterexample: a valid input (all entries non-negative) on which the
emission factor at (t, k) = (1, 0) is 0, the emission-free backpointer argmax
selects source state 1, but the argmax of the full score expression selects
source state 0 — the two argmaxes differ, refuting the claim as stated. -/
theorem C6_counterexample :
    ValidInput [0, 1] Azero Ezero pizero 2 ∧
    emissionAt Ezero [0, 1] 1 0 = 0 ∧
    fullArgmax [0, 1] Azero Ezero pizero 1 0 = some 0 ∧
    claimedArgmax [0, 1] Azero Ezero pizero 1 0 = some 1 := by
  with_unfolding_all decide

set_option maxRecDepth 8000 in
/-- C1 counterexample: a structurally valid 257-state input on which the stored
backpointer entry at (t, k) = (1, 0) is 0 while the claimed argmax over source
states of `score[j,0] * transition[j,0]` is 256 — the uint8 backpointer table
wraps the argmax mod 256, refuting `backpointer[k,t] = argmax ...` as stated. -/
theorem C1_counterexample :
    ValidShapes [0, 0] A257 E257 pi257 1 ∧
    bpEntry [0, 0] A257 E257 pi257 1 0 = some 0 ∧
    claimedArgmax [0, 0] A257 E257 pi257 1 0 = some 256 := by
  with_unfolding_all decide

set_option maxRecDepth 8000 in
/-- C2 counterexample: a valid 257-state input on which `viterbi` returns the
path [0, 0] with probability 1, while recomputing the joint probability of that
path from the inputs gives 0 — the backtraced path goes through a backpointer
stored mod 256, so the claim fails for K > 256. -/
theorem C2_counterexample :
    ValidInput [0, 0] A257 E257 pi257 1 ∧
    viterbi [0, 0] A257 E257 pi257 = some ([0, 0], 1) ∧
    recomputedProb [0, 0] A257 E257 pi257 [0, 0] = 0 ∧ (0 : ℚ) ≠ 1 := by
  with_unfolding_all decide

set_option maxRecDepth 8000 in
/-- C5 counterexample: a valid 258-state input on which the candidate values at
source states 256 and 257 are tied at the maximum 1, the lowest-indexed state
achieving the maximum is 256, but the stored backpointer entry — the selection
the decoder actually uses — is 0 (256 mod 256), refuting the lowest-index
tie-break claim as stated. -/
theorem C5_counterexample :
    ValidInput [0, 0] A258 E258 pi258 1 ∧
    Option.map (fun l => (l.getD 256 0, l.getD 257 0)) (candList [0, 0] A258 E258 pi258 1 0)
      = some (1, 1) ∧
    claimedArgmax [0, 0] A258 E258 pi258 1 0 = some 256 ∧
    bpEntry [0, 0] A258 E258 pi258 1 0 = some 0 := by
  with_unfolding_all decide

/-- Witness for C1: the recurrence theorem applied to the reference scenario at
(t, k) = (1, 0). -/
theorem C1_witness :
    ValidShapes [0, 1, 2] Aref Eref piref 3 ∧
    (scoreEntry [0, 1, 2] Aref Eref piref 1 0 = claimedScore [0, 1, 2] Aref Eref piref 1 0 ∧
      bpEntry [0, 1, 2] Aref Eref piref 1 0
        = (claimedArgmax [0, 1, 2] Aref Eref piref 1 0).map fun i => i % 256) := by
  have hv : ValidShapes [0, 1, 2] Aref Eref piref 3 := by decide
  exact ⟨hv, (C1_table_recurrence hv).2 1 0 (by decide) (by decide) (by decide)⟩

/-- Witness for C2: the path-probability theorem applied to the reference
scenario. -/
theorem C2_witness :
    ValidInput [0, 1, 2] Aref Eref piref 3 ∧ Aref.length ≤ 256 ∧
    viterbi [0, 1, 2] Aref Eref piref = some ([0, 0, 1], 1512/100000) ∧
    recomputedProb [0, 1, 2] Aref Eref piref [0, 0, 1] = 1512/100000 := by
  have hv : ValidInput [0, 1, 2] Aref Eref piref 3 := by with_unfolding_all decide
  have hrun : viterbi [0, 1, 2] Aref Eref piref = some ([0, 0, 1], 1512/100000) := by
    norm_num [viterbi, tables, runSteps, stepCol, transposeQ, getCol, mapOpt, elemMul,
      vecMax, vecMaxAux, argmaxFirst, argmaxAux, backtraceFrom, Aref, Eref, piref]
  exact ⟨hv, by decide, hrun, C2_path_probability hv (by decide) hrun⟩

/-- Witness for C5: the tie-break theorem applied to the reference scenario at
the stored backpointer entry (t, k) = (1, 0), whose value is 0. -/
theorem C5_witness :
    ValidInput [0, 1, 2] Aref Eref piref 3 ∧
    bpEntry [0, 1, 2] Aref Eref piref 1 0 = some 0 ∧
    ∃ l, candList [0, 1, 2] Aref Eref piref 1 0 = some l ∧ 0 < l.length ∧
      (∀ j, j < l.length → l.getD j 0 ≤ l.getD 0 0) ∧
      ∀ j, j < 0 → l.getD j 0 < l.getD 0 0 := by
  have hv : ValidInput [0, 1, 2] Aref Eref piref 3 := by with_unfolding_all decide
  have hbp : bpEntry [0, 1, 2] Aref Eref piref 1 0 = some 0 := by
    norm_num [bpEntry, bpCol, tables, runSteps, stepCol, transposeQ, getCol, mapOpt, elemMul,
      vecMax, vecMaxAux, argmaxFirst, argmaxAux, Aref, Eref, piref]
  exact ⟨hv, hbp,
    (C5_lowest_index_tie_break hv (by decide)).1 1 0 0 (by decide) (by decide) (by decide) hbp⟩

/-- Witness for C6: the emission-factor theorem applied to the reference
scenario at (t, k) = (1, 0), where the emission factor is 0.4 > 0. -/
theorem C6_witness :
    ValidInput [0, 1, 2] Aref Eref piref 3 ∧
    0 < emissionAt Eref [0, 1, 2] 1 0 ∧
    fullArgmax [0, 1, 2] Aref Eref piref 1 0 = claimedArgmax [0, 1, 2] Aref Eref piref 1 0 := by
  have hv : ValidInput [0, 1, 2] Aref Eref piref 3 := by with_unfolding_all decide
  have he : 0 < emissionAt Eref [0, 1, 2] 1 0 := by with_unfolding_all decide
  exact ⟨hv, he, C6_argmax_drop_emission hv 1 0 (by decide) (by decide) (by decide) he⟩

/-- Witness for C7: the path-shape theorem applied to the reference scenario. -/
theorem C7_witness :
    ValidInput [0, 1, 2] Aref Eref piref 3 ∧
    viterbi [0, 1, 2] Aref Eref piref = some ([0, 0, 1], 1512/100000) ∧
    (([0, 0, 1] : List ℕ).length = ([0, 1, 2] : List ℕ).length ∧
      ∀ v ∈ ([0, 0, 1] : List ℕ), v < Aref.length) := by
  have hv : ValidInput [0, 1, 2] Aref Eref piref 3 := by with_unfolding_all decide
  have hrun : viterbi [0, 1, 2] Aref Eref piref = some ([0, 0, 1], 1512/100000) := by
    norm_num [viterbi, tables, runSteps, stepCol, transposeQ, getCol, mapOpt, elemMul,
      vecMax, vecMaxAux, argmaxFirst, argmaxAux, backtraceFrom, Aref, Eref, piref]
  exact ⟨hv, hrun, C7_path_shape hv hrun⟩

/-- Witness for C8: determinism applied to two literally identical reference
invocations. -/
theorem C8_witness :
    viterbi [0, 1, 2] Aref Eref piref = viterbi [0, 1, 2] Aref Eref piref :=
  C8_deterministic [0, 1, 2] [0, 1, 2] Aref Aref Eref Eref piref piref rfl rfl rfl rfl

/-- Witness for C9: the frame theorem applied to the reference pre-call state,
whose run produces `sRefOut`. -/
theorem C9_witness :
    viterbiRun sRef = some sRefOut ∧
    (sRefOut.y = sRef.y ∧ sRefOut.transition_matrix = sRef.transition_matrix ∧
      sRefOut.emission_matrix = sRef.emission_matrix ∧
      sRefOut.initial_state = sRef.initial_state ∧
      viterbi sRef.y sRef.transition_matrix sRef.emission_matrix sRef.initial_state
        = some (sRefOut.path, sRefOut.probability)) := by
  have h : viterbiRun sRef = some sRefOut := by
    norm_num [viterbiRun, viterbi, tables, runSteps, stepCol, transposeQ, getCol, mapOpt,
      elemMul, vecMax, vecMaxAux, argmaxFirst, argmaxAux, backtraceFrom, Aref, Eref, piref,
      sRef, sRefOut, List.replicate]
  exact ⟨h, C9_frame sRef sRefOut h⟩

/-- Witness for C10: the emission-column theorem applied to `Eref` and `ErefAlt`,
which agree on the only observed column 0. -/
theorem C10_witness :
    (∀ t, t < ([0] : List ℕ).length →
      getCol Eref (([0] : List ℕ).getD t 0) = getCol ErefAlt (([0] : List ℕ).getD t 0)) ∧
    viterbi [0] Aref Eref piref = viterbi [0] Aref ErefAlt piref := by
  have h : ∀ t, t < ([0] : List ℕ).length →
      getCol Eref (([0] : List ℕ).getD t 0) = getCol ErefAlt (([0] : List ℕ).getD t 0) := by
    with_unfolding_all decide
  exact ⟨h, C10_emission_columns h⟩

/-- C4 counterexample: a call whose transition matrix is 3×2 (not square) does
not fail with any dimension error — it returns a normal full result, refuting
the claim that dimension mismatches fail with `InvalidDimension` before any
numerical work with no partial result returned. -/
theorem C4_counterexample :
    (¬ ∀ row ∈ Abad, row.length = Abad.length) ∧
    viterbi [0] Abad Ebad pibad = some ([2], 2) :=
  ⟨by decide, by with_unfolding_all decide⟩
